import Mathlib

/-!
Verification of the dna_io reader/writer library (src/src/lib.rs).

The byte stream of a file is modelled as a `List Char`.  Rust's
`BufRead::read_line` reads everything up to and including the next `'\n'`
(or up to end of input), so a stream decomposes uniquely into physical
lines; `toLines` performs that decomposition and the readers are modelled
as functions on the resulting line lists, with `List Char` wrappers.
Rust panics are modelled as explicit error values, one constructor per
panic site.
-/

namespace DnaFile

/-- Decompose a stream into its physical lines, each line carrying its
trailing `'\n'` except possibly the last.  `toLines s` is exactly the
sequence of strings successive `read_line` calls produce on `s` (the empty
read at end of stream corresponds to the list being exhausted). -/
def toLines : List Char → List (List Char)
  | [] => []
  | c :: rest =>
    if c = '\n' then ['\n'] :: toLines rest
    else match toLines rest with
      | [] => [[c]]
      | l :: ls => (c :: l) :: ls

/-- Rust `line.starts_with(c)` for a one-character pattern. -/
def startsWithChar (c : Char) : List Char → Bool
  | [] => false
  | x :: _ => x = c

/-- Rust `pub struct DnaRecord { pub seq: String, pub qual: Option<String>, pub name: String }` -/
structure DnaRecord where
  seq : List Char
  qual : Option (List Char)
  name : List Char
deriving DecidableEq

/-- Reader-side panic sites: `panic!("not fasta format?")`. -/
inductive ReadError where
  | malformedInput
deriving DecidableEq

/-- Writer-side panic sites: `panic!("I have no qual i cant write fastq")`. -/
inductive WriteError where
  | missingQuality
deriving DecidableEq

/-- Rust `pub enum DnaFormat { Fastq, Fasta, Bam, Sam, Cram, TwoBit }` -/
inductive DnaFormat where
  | fastq
  | fasta
  | bam
  | sam
  | cram
  | twoBit
deriving DecidableEq

/-- Rust `pub enum Compression { Gzipped, Uncompressed }` -/
inductive Compression where
  | gzipped
  | uncompressed
deriving DecidableEq

/-- The four distinct failure sites of `check_extension`, one constructor
per assert/panic message:
`"file {} has no extension"`, `"gz file {} has no format extension"`,
`"format of file {} not supported"` (inside the gz arm), and
`"format of file {} not supported "` (the final catch-all arm). -/
inductive ExtError where
  | missingExtension
  | gzMissingFormatExtension
  | unsupportedCompressedFormat
  | unsupportedFormat
deriving DecidableEq

/-- Rust `filename.split(".")` on a character list: splits at every `'.'`,
keeping empty segments, and yields one segment even for the empty input. -/
def splitDots : List Char → List (List Char)
  | [] => [[]]
  | c :: rest =>
    if c = '.' then [] :: splitDots rest
    else match splitDots rest with
      | [] => [[c]]
      | l :: ls => (c :: l) :: ls

/-- Rust `filetype[filetype.len()-1]`, the final dot-separated segment. -/
def lastSeg (ft : List (List Char)) : List Char := ft.getLastD []

/-- Rust `filetype[filetype.len()-2]`, the second-to-last segment. -/
def penultSeg (ft : List (List Char)) : List Char := ft.getD (ft.length - 2) []

/-- Source `fn check_extension(filename: &str) -> (DnaFormat, Compression)`, acting
on the dot-separated segments (`filetype` in the source).  The source
asserts `filetype.len() >= 2`, matches the final segment, and for `"gz"`
asserts `filetype.len() >= 3` before matching the second-to-last segment. -/
def checkExtCore (filetype : List (List Char)) : Except ExtError (DnaFormat × Compression) :=
  if filetype.length < 2 then .error .missingExtension
  else if lastSeg filetype = "gz".toList then
    if filetype.length < 3 then .error .gzMissingFormatExtension
    else if penultSeg filetype = "fa".toList then .ok (.fasta, .gzipped)
    else if penultSeg filetype = "fasta".toList then .ok (.fasta, .gzipped)
    else if penultSeg filetype = "fq".toList then .ok (.fastq, .gzipped)
    else if penultSeg filetype = "fastq".toList then .ok (.fastq, .gzipped)
    else .error .unsupportedCompressedFormat
  else if lastSeg filetype = "fastq".toList then .ok (.fastq, .uncompressed)
  else if lastSeg filetype = "fq".toList then .ok (.fastq, .uncompressed)
  else if lastSeg filetype = "fasta".toList then .ok (.fasta, .uncompressed)
  else if lastSeg filetype = "fa".toList then .ok (.fasta, .uncompressed)
  else if lastSeg filetype = "sam".toList then .ok (.sam, .uncompressed)
  else if lastSeg filetype = "bam".toList then .ok (.bam, .gzipped)
  else if lastSeg filetype = "cram".toList then .ok (.cram, .gzipped)
  else if lastSeg filetype = "2Bit".toList then .ok (.twoBit, .uncompressed)
  else .error .unsupportedFormat

/-- The resolver `check_extension` applied to a filename. -/
def check_extension (filename : List Char) : Except ExtError (DnaFormat × Compression) :=
  checkExtCore (splitDots filename)

/-! ## FASTQ reader (`impl DnaRead for FastqReader`, src lines 173-199)

One `next()` call reads four lines (name, seq, sep, qual), returning
`None` as soon as any of the four reads yields zero bytes, and pops the
final character of the name, seq and qual lines (the sep line is consumed
unchecked and unpopped). -/

/-- One `FastqReader::next` call on the remaining lines; yields the record
and the remaining lines. -/
def fastqNextL : List (List Char) → Option (DnaRecord × List (List Char))
  | [] => none
  | nameLine :: rest =>
    match rest with
    | [] => none
    | seqLine :: rest2 =>
      match rest2 with
      | [] => none
      | _sepLine :: rest3 =>
        match rest3 with
        | [] => none
        | qualLine :: rest4 =>
          some ({ seq := seqLine.dropLast, qual := some qualLine.dropLast,
                  name := nameLine.dropLast }, rest4)

/-- All records produced by iterating `FastqReader::next` to the first
`None`. -/
def fastqRecordsL : List (List Char) → List DnaRecord
  | nameLine :: seqLine :: _sepLine :: qualLine :: rest =>
    { seq := seqLine.dropLast, qual := some qualLine.dropLast,
      name := nameLine.dropLast } :: fastqRecordsL rest
  | _ => []

/-- One `FastqReader::next` call on a byte stream. -/
def fastqNext (s : List Char) : Option (DnaRecord × List (List Char)) :=
  fastqNextL (toLines s)

/-- Iterated `FastqReader::next` on a byte stream. -/
def fastqRecords (s : List Char) : List DnaRecord :=
  fastqRecordsL (toLines s)

/-- Source `impl DnaWrite for FastqWriter` (src lines 201-210):
`format!("{}\n{}\n+\n{}\n", rec.name, rec.seq, qual)`, panicking when
`rec.qual` is `None`. -/
def fastqWrite (rec : DnaRecord) : Except WriteError (List Char) :=
  match rec.qual with
  | none => .error .missingQuality
  | some q => .ok (rec.name ++ '\n' :: (rec.seq ++ '\n' :: ('+' :: '\n' :: (q ++ ['\n']))))

/-- Write a list of records with `FastqWriter::write`, concatenating the
output bytes. -/
def fastqWriteAll : List DnaRecord → Except WriteError (List Char)
  | [] => .ok []
  | r :: rs =>
    match fastqWrite r with
    | .error e => .error e
    | .ok bs =>
      match fastqWriteAll rs with
      | .error e => .error e
      | .ok rest => .ok (bs ++ rest)

/-- Read every record of a FASTQ stream and immediately rewrite them in
FASTQ format. -/
def fastqRewrite (s : List Char) : Except WriteError (List Char) :=
  fastqWriteAll (fastqRecords s)

/-! ## FASTA reader (`impl DnaRead for FastaReader`, src lines 235-316)

State carried across calls: `last_name: Option<String>`.  Each call runs
the accumulation loop `'line_iter`: a `>`-line is captured (popped) as the
next pending header, an empty read ends the loop, and any other line is
popped and appended to `seq`. -/

/-- The `'line_iter` loop: returns the accumulated sequence, the captured
`next_name` (empty when none was captured — the source's sentinel), and
the remaining lines. -/
def fastaLoopLines : List (List Char) → List Char → List Char × List Char × List (List Char)
  | [], seq => (seq, [], [])
  | line :: rest, seq =>
    if startsWithChar '>' line then (seq, line.dropLast, rest)
    else if line = [] then (seq, [], rest)
    else fastaLoopLines rest (seq ++ line.dropLast)

/-- One `FastaReader::next` call: takes the carried `last_name` and the
remaining lines, and yields either `.ok none` (end of stream), an error
(first line is not a header), or the record together with the updated
`last_name` and remaining lines. -/
def fastaNextL : Option (List Char) → List (List Char) →
    Except ReadError (Option (DnaRecord × Option (List Char) × List (List Char)))
  | some myName, lines =>
    match fastaLoopLines lines [] with
    | (seq, nextName, rest) =>
      .ok (some ({ seq := seq, qual := none, name := myName },
        (if nextName = [] then none else some nextName), rest))
  | none, [] => .ok none
  | none, line :: rest =>
    if startsWithChar '>' line then
      match fastaLoopLines rest [] with
      | (seq, nextName, rest') =>
        .ok (some ({ seq := seq, qual := none, name := line.dropLast },
          (if nextName = [] then none else some nextName), rest'))
    else if line = [] then .ok none
    else .error .malformedInput

/-- The loop leaves a suffix of the input lines. -/
theorem fastaLoopLines_rest_le (lines : List (List Char)) :
    ∀ seq, (fastaLoopLines lines seq).2.2.length ≤ lines.length := by
  induction lines with
  | nil => intro seq; simp [fastaLoopLines]
  | cons line rest ih =>
    intro seq
    simp only [fastaLoopLines, List.length_cons]
    split
    · exact Nat.le_succ _
    · split
      · exact Nat.le_succ _
      · exact le_trans (ih _) (Nat.le_succ _)

/-- When a pending header was captured, the loop consumed at least one
line. -/
theorem fastaLoopLines_rest_lt (lines : List (List Char)) :
    ∀ seq, (fastaLoopLines lines seq).2.1 ≠ [] →
      (fastaLoopLines lines seq).2.2.length < lines.length := by
  induction lines with
  | nil => intro seq h; simp [fastaLoopLines] at h
  | cons line rest ih =>
    intro seq
    simp only [fastaLoopLines, List.length_cons]
    split
    · intro _; exact Nat.lt_succ_of_le (Nat.le_refl _)
    · split
      · intro h; exact absurd rfl h
      · intro h; exact Nat.lt_succ_of_le (le_of_lt (ih _ h))

/-- A successful `next` strictly decreases the termination measure. -/
theorem fastaNextL_measure (ln : Option (List Char)) (lines : List (List Char))
    (r : DnaRecord) (ln' : Option (List Char)) (rest : List (List Char))
    (hx : fastaNextL ln lines = .ok (some (r, ln', rest))) :
    rest.length + (if ln'.isSome then 1 else 0) <
      lines.length + (if ln.isSome then 1 else 0) := by
  cases ln with
  | some myName =>
    have h1 := fastaLoopLines_rest_le lines []
    have h2 := fastaLoopLines_rest_lt lines []
    rcases hloop : fastaLoopLines lines [] with ⟨seq, nextName, rest0⟩
    rw [hloop] at h1 h2
    simp only at h1 h2
    simp only [fastaNextL, hloop, Except.ok.injEq, Option.some.injEq, Prod.mk.injEq] at hx
    obtain ⟨hr, hln, hrest⟩ := hx
    subst hln hrest
    by_cases hnn : nextName = []
    · simp [hnn]
      omega
    · simp [hnn]
      have := h2 hnn
      omega
  | none =>
    cases lines with
    | nil => simp [fastaNextL] at hx
    | cons line rest0 =>
      by_cases hgt : startsWithChar '>' line = true
      · have h1 := fastaLoopLines_rest_le rest0 []
        have h2 := fastaLoopLines_rest_lt rest0 []
        rcases hloop : fastaLoopLines rest0 [] with ⟨seq, nextName, rest1⟩
        rw [hloop] at h1 h2
        simp only at h1 h2
        simp only [fastaNextL, hgt, if_true, hloop, Except.ok.injEq, Option.some.injEq,
          Prod.mk.injEq] at hx
        obtain ⟨hr, hln, hrest⟩ := hx
        subst hln hrest
        by_cases hnn : nextName = []
        · simp [hnn]
          omega
        · simp [hnn]
          have := h2 hnn
          omega
      · simp only [fastaNextL] at hx
        rw [if_neg hgt] at hx
        split at hx
        · simp at hx
        · simp at hx

/-- Iterated `FastaReader::next` to the first `None` (or error). -/
def fastaRecordsL (ln : Option (List Char)) (lines : List (List Char)) :
    Except ReadError (List DnaRecord) :=
  match hx : fastaNextL ln lines with
  | .error e => .error e
  | .ok none => .ok []
  | .ok (some (r, ln', rest)) => Except.map (fun l => r :: l) (fastaRecordsL ln' rest)
termination_by lines.length + (if ln.isSome then 1 else 0)
decreasing_by exact fastaNextL_measure ln lines r ln' rest hx

/-- One `FastaReader::next` call on a byte stream. -/
def fastaNext (ln : Option (List Char)) (s : List Char) :
    Except ReadError (Option (DnaRecord × Option (List Char) × List (List Char))) :=
  fastaNextL ln (toLines s)

/-- Iterated `FastaReader::next` on a byte stream, starting from the given
`last_name` state. -/
def fastaRecords (ln : Option (List Char)) (s : List Char) :
    Except ReadError (List DnaRecord) :=
  fastaRecordsL ln (toLines s)

/-- Source `impl DnaWrite for FastaWriter` (src lines 326-331):
`format!("{}\n{}\n", rec.name, rec.seq)` — no `>` is prepended. -/
def fastaWrite (rec : DnaRecord) : List Char :=
  rec.name ++ '\n' :: (rec.seq ++ ['\n'])

/-- Write a list of records with `FastaWriter::write`, concatenating the
output bytes. -/
def fastaWriteAll (rs : List DnaRecord) : List Char :=
  (rs.map fastaWrite).flatten

/-! ## SAM reader (`impl DnaRead for SamReader`, src lines 408-422)

The loop condition in the source is
`while !self.buf_reader.read_line(&mut line).unwrap_or(0) > 0 && !line.starts_with("@")`;
unary `!` binds to the read count, so the left conjunct is the bitwise
64-bit complement of the byte count compared against zero, and the `line`
buffer is never cleared between iterations.  The loop does not terminate
on end of input unless the accumulated buffer starts with `'@'`, so the
model is fuel-bounded. -/

/-- Outcome of one `SamReader::next` call. -/
inductive SamNextResult where
  | result (r : Option DnaRecord)
  | assertFail
  | fuelOut
deriving DecidableEq

/-- Bitwise NOT of a 64-bit `usize`, as the Rust expression `!n` computes
on the byte count. -/
def usizeNot (n : Nat) : Nat := 2 ^ 64 - 1 - n

/-- Rust `line.split_whitespace()`: maximal runs of non-whitespace. -/
def splitWS (s : List Char) : List (List Char) :=
  (s.splitOnP (fun c => c.isWhitespace)).filter (fun l => !l.isEmpty)

/-- The `SamReader::next` loop.  `line` is the accumulated buffer, `toRet`
the record assigned by the previous iteration. -/
def samNextAux : Nat → List Char → Option DnaRecord → List (List Char) → SamNextResult
  | 0, _, _, _ => .fuelOut
  | fuel + 1, line, toRet, lines =>
    let l := lines.headD []
    let rest := lines.tail
    let line2 := line ++ l
    if usizeNot l.length > 0 ∧ startsWithChar '@' line2 = false then
      let fields := splitWS line2
      if fields.length > 10 then
        samNextAux fuel line2
          (some { seq := fields.getD 9 [], qual := some (fields.getD 10 []),
                  name := fields.getD 0 [] }) rest
      else .assertFail
    else .result toRet

/-- One `SamReader::next` call on a byte stream, fuel-bounded. -/
def samNext (fuel : Nat) (s : List Char) : SamNextResult :=
  samNextAux fuel [] none (toLines s)

/-! ## Specification-side rendering of valid inputs -/

/-- Render abstract FASTA records (header line, interior lines) into a
byte stream, every physical line `'\n'`-terminated. -/
def renderFasta (recs : List (List Char × List (List Char))) : List Char :=
  (recs.map (fun r => (r.1 ++ ['\n']) ++ (r.2.map (fun l => l ++ ['\n'])).flatten)).flatten

/-- The physical lines of `renderFasta recs`. -/
def linesOfRecs (recs : List (List Char × List (List Char))) : List (List Char) :=
  (recs.map (fun r => (r.1 ++ ['\n']) :: r.2.map (fun l => l ++ ['\n']))).flatten

/-- A FASTA header line content: starts with the marker, no terminator
inside. -/
abbrev ValidHeader (h : List Char) : Prop := startsWithChar '>' h = true ∧ '\n' ∉ h

/-- A FASTA interior line content: no marker at the front, no terminator
inside. -/
abbrev ValidBodyLine (l : List Char) : Prop := startsWithChar '>' l = false ∧ '\n' ∉ l

/-- Validity of abstract FASTA records. -/
abbrev ValidFastaRecs (recs : List (List Char × List (List Char))) : Prop :=
  ∀ r ∈ recs, ValidHeader r.1 ∧ ∀ l ∈ r.2, ValidBodyLine l

/-- The number of `'>'`-prefixed physical lines of a stream. -/
def countGtLines (s : List Char) : Nat :=
  ((toLines s).filter (fun l => startsWithChar '>' l)).length

/-- Render abstract FASTQ groups (name, sequence, quality) as the four
`'\n'`-terminated physical lines of one cycle each, the separator line
being exactly `"+"`. -/
def renderFastq (gs : List (List Char × List Char × List Char)) : List Char :=
  (gs.map (fun g => g.1 ++ '\n' :: (g.2.1 ++ '\n' :: ('+' :: '\n' :: (g.2.2 ++ ['\n']))))).flatten

/-- Validity of abstract FASTQ groups: no terminator inside a line. -/
abbrev ValidFastqGroups (gs : List (List Char × List Char × List Char)) : Prop :=
  ∀ g ∈ gs, '\n' ∉ g.1 ∧ '\n' ∉ g.2.1 ∧ '\n' ∉ g.2.2

/-! ## Line-scanner lemmas -/

/-- Scanning a terminator-free line followed by its terminator yields that
physical line. -/
theorem toLines_line (l : List Char) (rest : List Char) (hnl : '\n' ∉ l) :
    toLines (l ++ '\n' :: rest) = (l ++ ['\n']) :: toLines rest := by
  induction l with
  | nil => simp [toLines]
  | cons c l ih =>
    have hc : ¬ c = '\n' := fun h => hnl (by simp [h])
    have hl : '\n' ∉ l := fun h => hnl (List.mem_cons_of_mem _ h)
    simp [toLines, if_neg hc, ih hl]

/-- A nonempty terminator-free tail is a single unterminated line. -/
theorem toLines_last (l : List Char) (hnl : '\n' ∉ l) (hne : l ≠ []) :
    toLines l = [l] := by
  induction l with
  | nil => exact absurd rfl hne
  | cons c l ih =>
    have hc : ¬ c = '\n' := fun h => hnl (by simp [h])
    have hl : '\n' ∉ l := fun h => hnl (List.mem_cons_of_mem _ h)
    by_cases hl0 : l = []
    · subst hl0; simp [toLines, if_neg hc]
    · simp [toLines, if_neg hc, ih hl hl0]

/-- Scanning a block of rendered interior lines. -/
theorem toLines_body (body : List (List Char)) (rest : List Char)
    (hb : ∀ l ∈ body, '\n' ∉ l) :
    toLines ((body.map (fun l => l ++ ['\n'])).flatten ++ rest)
      = body.map (fun l => l ++ ['\n']) ++ toLines rest := by
  induction body with
  | nil => simp
  | cons bl body ih =>
    have h1 : '\n' ∉ bl := hb bl (List.mem_cons_self _ _)
    have h2 : ∀ l ∈ body, '\n' ∉ l := fun l hm => hb l (List.mem_cons_of_mem _ hm)
    have : (((bl ++ ['\n']) :: body.map (fun l => l ++ ['\n'])).flatten ++ rest)
        = bl ++ '\n' :: ((body.map (fun l => l ++ ['\n'])).flatten ++ rest) := by
      simp
    simp only [List.map_cons, this, toLines_line bl _ h1, ih h2, List.cons_append]

/-- Scanning a rendered FASTA file yields exactly its header and interior
lines. -/
theorem toLines_renderFasta (recs : List (List Char × List (List Char)))
    (h : ValidFastaRecs recs) :
    toLines (renderFasta recs) = linesOfRecs recs := by
  induction recs with
  | nil => rfl
  | cons r rs ih =>
    obtain ⟨⟨hh1, hh2⟩, hb⟩ := h r (List.mem_cons_self _ _)
    have hrs : ValidFastaRecs rs := fun q hq => h q (List.mem_cons_of_mem _ hq)
    have hbody : ∀ l ∈ r.2, '\n' ∉ l := fun l hm => (hb l hm).2
    have hshape : renderFasta (r :: rs)
        = r.1 ++ '\n' :: ((r.2.map (fun l => l ++ ['\n'])).flatten ++ renderFasta rs) := by
      simp [renderFasta]
    rw [hshape, toLines_line _ _ hh2, toLines_body _ _ hbody, ih hrs]
    simp [linesOfRecs]

/-- Rust `starts_with` only looks at the head, so it survives appending. -/
theorem startsWithChar_append (c : Char) (l t : List Char)
    (h : startsWithChar c l = true) : startsWithChar c (l ++ t) = true := by
  cases l with
  | nil => simp [startsWithChar] at h
  | cons x l => simpa [startsWithChar] using h

/-- A line whose content does not start with the marker still does not
after its terminator is appended. -/
theorem startsWithChar_terminated (l : List Char)
    (h : startsWithChar '>' l = false) :
    startsWithChar '>' (l ++ ['\n']) = false := by
  cases l with
  | nil => decide
  | cons x l => simpa [startsWithChar] using h

/-- A line that starts with a marker is nonempty. -/
theorem startsWithChar_ne_nil (c : Char) (l : List Char)
    (h : startsWithChar c l = true) : l ≠ [] := by
  cases l with
  | nil => simp [startsWithChar] at h
  | cons x l => simp

/-! ## FASTA reader on rendered inputs -/

/-- The iterator propagates a read error. -/
theorem fastaRecordsL_err (ln : Option (List Char)) (lines : List (List Char))
    (e : ReadError) (hx : fastaNextL ln lines = .error e) :
    fastaRecordsL ln lines = .error e := by
  rw [fastaRecordsL]
  split <;> simp_all

/-- The iterator stops at a clean end of stream. -/
theorem fastaRecordsL_ok_none (ln : Option (List Char)) (lines : List (List Char))
    (hx : fastaNextL ln lines = .ok none) :
    fastaRecordsL ln lines = .ok [] := by
  rw [fastaRecordsL]
  split <;> simp_all

/-- The iterator conses a returned record onto the remaining iteration. -/
theorem fastaRecordsL_ok_some (ln : Option (List Char)) (lines : List (List Char))
    (r : DnaRecord) (ln' : Option (List Char)) (rest : List (List Char))
    (hx : fastaNextL ln lines = .ok (some (r, ln', rest))) :
    fastaRecordsL ln lines = Except.map (fun l => r :: l) (fastaRecordsL ln' rest) := by
  rw [fastaRecordsL]
  split
  · rename_i heq
    rw [hx] at heq
    exact absurd heq (by simp)
  · rename_i heq
    rw [hx] at heq
    exact absurd heq (by simp)
  · rename_i r2 ln2 rest2 heq
    rw [hx] at heq
    simp only [Except.ok.injEq, Option.some.injEq, Prod.mk.injEq] at heq
    obtain ⟨h1, h2, h3⟩ := heq
    rw [h1, h2, h3]

/-- The header of the first record rendered, `[]` when there is none. -/
def nextHeaderOf : List (List Char × List (List Char)) → List Char
  | [] => []
  | r :: _ => r.1

/-- The lines remaining after the first rendered header line. -/
def restLinesOf : List (List Char × List (List Char)) → List (List Char)
  | [] => []
  | r :: rs => r.2.map (fun l => l ++ ['\n']) ++ linesOfRecs rs

/-- The accumulation loop swallows a block of rendered interior lines. -/
theorem fastaLoopLines_body (body : List (List Char)) (rest : List (List Char)) :
    ∀ acc, (∀ l ∈ body, ValidBodyLine l) →
    fastaLoopLines (body.map (fun l => l ++ ['\n']) ++ rest) acc
      = fastaLoopLines rest (acc ++ body.flatten) := by
  induction body with
  | nil => intro acc _; simp
  | cons bl body ih =>
    intro acc hb
    obtain ⟨hb1, _⟩ := hb bl (List.mem_cons_self _ _)
    have hbt : ∀ l ∈ body, ValidBodyLine l := fun l hm => hb l (List.mem_cons_of_mem _ hm)
    have hgt := startsWithChar_terminated bl hb1
    have hne : ¬ (bl ++ ['\n'] = []) := by simp
    rw [List.map_cons, List.cons_append, fastaLoopLines, if_neg (by simp [hgt]), if_neg hne,
      List.dropLast_concat, ih _ hbt, List.flatten_cons, ← List.append_assoc]

/-- The accumulation loop stopped at the lines of a rendered record list:
it returns the accumulator, the next header (the source's empty-string
sentinel when the stream is exhausted), and the remaining lines. -/
theorem fastaLoopLines_recs (recs : List (List Char × List (List Char)))
    (acc : List Char) (h : ValidFastaRecs recs) :
    fastaLoopLines (linesOfRecs recs) acc = (acc, nextHeaderOf recs, restLinesOf recs) := by
  cases recs with
  | nil => simp [linesOfRecs, fastaLoopLines, nextHeaderOf, restLinesOf]
  | cons r rs =>
    obtain ⟨⟨hh1, _⟩, _⟩ := h r (List.mem_cons_self _ _)
    have hgt : startsWithChar '>' (r.1 ++ ['\n']) = true := startsWithChar_append _ _ _ hh1
    have hshape : linesOfRecs (r :: rs)
        = (r.1 ++ ['\n']) :: (r.2.map (fun l => l ++ ['\n']) ++ linesOfRecs rs) := by
      simp [linesOfRecs]
    rw [hshape]
    simp [fastaLoopLines, hgt, nextHeaderOf, restLinesOf]

/-- Unfolding `next` from the carried-header state through the loop. -/
theorem fastaNextL_some (myName : List Char) (lines : List (List Char)) :
    fastaNextL (some myName) lines =
      match fastaLoopLines lines [] with
      | (seq, nextName, rest) =>
        .ok (some ({ seq := seq, qual := none, name := myName },
          (if nextName = [] then none else some nextName), rest)) := rfl

/-- Unfolding `next` from the carried-header state on a rendered tail. -/
theorem fastaNextL_some_render (hd : List Char) (body : List (List Char))
    (rs : List (List Char × List (List Char)))
    (hb : ∀ l ∈ body, ValidBodyLine l) (hv : ValidFastaRecs rs) :
    fastaNextL (some hd) (body.map (fun l => l ++ ['\n']) ++ linesOfRecs rs)
      = .ok (some ({ seq := body.flatten, qual := none, name := hd },
          (if nextHeaderOf rs = [] then none else some (nextHeaderOf rs)), restLinesOf rs)) := by
  rw [fastaNextL_some, fastaLoopLines_body body _ _ hb, fastaLoopLines_recs rs _ hv]
  simp

/-- From the start state, a header line merely installs itself as the
current name: the call continues exactly as from the carried state. -/
theorem fastaNextL_header (hd : List Char) (rest : List (List Char))
    (hh : startsWithChar '>' (hd ++ ['\n']) = true) :
    fastaNextL none ((hd ++ ['\n']) :: rest) = fastaNextL (some hd) rest := by
  rcases hloop : fastaLoopLines rest [] with ⟨seq, nextName, rest2⟩
  simp [fastaNextL, hh, hloop]

/-- The record iterator started on a header line equals the iterator from
the carried-header state. -/
theorem fastaRecordsL_header (hd : List Char) (rest : List (List Char))
    (hh : startsWithChar '>' (hd ++ ['\n']) = true) :
    fastaRecordsL none ((hd ++ ['\n']) :: rest) = fastaRecordsL (some hd) rest := by
  have h := fastaNextL_header hd rest hh
  rcases hres : fastaNextL (some hd) rest with e | v
  · rw [fastaRecordsL_err _ _ e (h.trans hres), fastaRecordsL_err _ _ e hres]
  · cases v with
    | none => rw [fastaRecordsL_ok_none _ _ (h.trans hres), fastaRecordsL_ok_none _ _ hres]
    | some t =>
      rcases t with ⟨r, ⟨ln2, rest2⟩⟩
      rw [fastaRecordsL_ok_some _ _ r ln2 rest2 (h.trans hres),
        fastaRecordsL_ok_some _ _ r ln2 rest2 hres]

/-- The record iterator, from a carried header followed by its rendered
interior lines and the rendered remaining records. -/
theorem fastaRecordsL_from_header (rs : List (List Char × List (List Char))) :
    ValidFastaRecs rs →
    ∀ (hd : List Char) (body : List (List Char)), (∀ l ∈ body, ValidBodyLine l) →
    fastaRecordsL (some hd) (body.map (fun l => l ++ ['\n']) ++ linesOfRecs rs)
      = .ok ({ seq := body.flatten, qual := none, name := hd }
          :: rs.map (fun r => { seq := r.2.flatten, qual := none, name := r.1 })) := by
  induction rs with
  | nil =>
    intro _ hd body hb
    have hx : fastaNextL (some hd) (body.map (fun l => l ++ ['\n']) ++ linesOfRecs [])
        = .ok (some ({ seq := body.flatten, qual := none, name := hd }, none, [])) := by
      rw [fastaNextL_some, fastaLoopLines_body body _ _ hb]
      simp [linesOfRecs, fastaLoopLines]
    rw [fastaRecordsL_ok_some _ _ _ _ _ hx, fastaRecordsL_ok_none none [] rfl]
    simp [Except.map]
  | cons r rs ih =>
    intro hv hd body hb
    obtain ⟨⟨hh1, hh2⟩, hbr⟩ := hv r (List.mem_cons_self _ _)
    have hvt : ValidFastaRecs rs := fun q hq => hv q (List.mem_cons_of_mem _ hq)
    have hne : r.1 ≠ [] := startsWithChar_ne_nil '>' r.1 hh1
    have hx : fastaNextL (some hd) (body.map (fun l => l ++ ['\n']) ++ linesOfRecs (r :: rs))
        = .ok (some ({ seq := body.flatten, qual := none, name := hd }, some r.1,
            r.2.map (fun l => l ++ ['\n']) ++ linesOfRecs rs)) := by
      rw [fastaNextL_some_render hd body (r :: rs) hb hv]
      simp [nextHeaderOf, restLinesOf, hne]
    rw [fastaRecordsL_ok_some _ _ _ _ _ hx, ih hvt r.1 r.2 hbr]
    simp [Except.map]

/-- Master lemma: reading a rendered valid FASTA input produces exactly
one record per rendered record, the name being the full header content
and the sequence the concatenation of the interior line contents. -/
theorem fastaRecords_render (recs : List (List Char × List (List Char)))
    (h : ValidFastaRecs recs) :
    fastaRecords none (renderFasta recs)
      = .ok (recs.map (fun r => { seq := r.2.flatten, qual := none, name := r.1 })) := by
  rw [fastaRecords, toLines_renderFasta recs h]
  cases recs with
  | nil =>
    have hlin : linesOfRecs ([] : List (List Char × List (List Char))) = [] := by
      simp [linesOfRecs]
    rw [hlin, fastaRecordsL_ok_none none [] rfl]
    rfl
  | cons r rs =>
    obtain ⟨⟨hh1, hh2⟩, hbr⟩ := h r (List.mem_cons_self _ _)
    have hvt : ValidFastaRecs rs := fun q hq => h q (List.mem_cons_of_mem _ hq)
    have hshape : linesOfRecs (r :: rs)
        = (r.1 ++ ['\n']) :: (r.2.map (fun l => l ++ ['\n']) ++ linesOfRecs rs) := by
      simp [linesOfRecs]
    rw [hshape, fastaRecordsL_header r.1 _ (startsWithChar_append _ _ _ hh1),
      fastaRecordsL_from_header rs hvt r.1 r.2 hbr]
    simp

/-- Counting `'>'`-prefixed lines among the rendered lines. -/
theorem filter_linesOfRecs (recs : List (List Char × List (List Char))) :
    ValidFastaRecs recs →
    ((linesOfRecs recs).filter (fun l => startsWithChar '>' l)).length = recs.length := by
  induction recs with
  | nil => intro _; rfl
  | cons r rs ih =>
    intro h
    obtain ⟨⟨hh1, _⟩, hbr⟩ := h r (List.mem_cons_self _ _)
    have hvt : ValidFastaRecs rs := fun q hq => h q (List.mem_cons_of_mem _ hq)
    have hgt : startsWithChar '>' (r.1 ++ ['\n']) = true := startsWithChar_append _ _ _ hh1
    have hbody : ∀ l ∈ r.2.map (fun l => l ++ ['\n']), ¬ (startsWithChar '>' l = true) := by
      intro l hm
      obtain ⟨bl, hbl, rfl⟩ := List.mem_map.mp hm
      simp [startsWithChar_terminated bl (hbr bl hbl).1]
    have hshape : linesOfRecs (r :: rs)
        = (r.1 ++ ['\n']) :: (r.2.map (fun l => l ++ ['\n']) ++ linesOfRecs rs) := by
      simp [linesOfRecs]
    rw [hshape, List.filter_cons_of_pos (by simp [hgt]), List.filter_append,
      List.filter_eq_nil_iff.mpr hbody]
    simp [ih hvt]

/-- Counting `'>'`-prefixed lines of a rendered valid FASTA input. -/
theorem countGtLines_render (recs : List (List Char × List (List Char)))
    (h : ValidFastaRecs recs) :
    countGtLines (renderFasta recs) = recs.length := by
  rw [countGtLines, toLines_renderFasta recs h]
  exact filter_linesOfRecs recs h

/-! ## FASTQ reader and writer on rendered inputs -/

/-- The physical lines of rendered FASTQ groups: four per group. -/
theorem toLines_renderFastq (gs : List (List Char × List Char × List Char)) :
    ValidFastqGroups gs →
    toLines (renderFastq gs)
      = (gs.map (fun g => [g.1 ++ ['\n'], g.2.1 ++ ['\n'], ['+', '\n'],
          g.2.2 ++ ['\n']])).flatten := by
  induction gs with
  | nil => intro _; rfl
  | cons g gs ih =>
    intro h
    obtain ⟨h1, h2, h3⟩ := h g (List.mem_cons_self _ _)
    have ht : ValidFastqGroups gs := fun q hq => h q (List.mem_cons_of_mem _ hq)
    have hshape : renderFastq (g :: gs)
        = g.1 ++ '\n' :: (g.2.1 ++ '\n' :: ('+' :: '\n' :: (g.2.2 ++ '\n' :: renderFastq gs))) := by
      simp [renderFastq]
    rw [hshape, toLines_line _ _ h1, toLines_line _ _ h2,
      show ('+' :: '\n' :: (g.2.2 ++ '\n' :: renderFastq gs))
        = ['+'] ++ '\n' :: (g.2.2 ++ '\n' :: renderFastq gs) from rfl,
      toLines_line ['+'] _ (by simp), toLines_line _ _ h3, ih ht]
    simp

/-- Reading rendered FASTQ groups yields one record per group, each line
with its terminator popped. -/
theorem fastqRecordsL_groups (gs : List (List Char × List Char × List Char)) :
    fastqRecordsL ((gs.map (fun g => [g.1 ++ ['\n'], g.2.1 ++ ['\n'], ['+', '\n'],
        g.2.2 ++ ['\n']])).flatten)
      = gs.map (fun g => { seq := g.2.1, qual := some g.2.2, name := g.1 }) := by
  induction gs with
  | nil => rfl
  | cons g gs ih =>
    simp only [List.map_cons, List.flatten_cons, List.cons_append, List.nil_append]
    rw [fastqRecordsL, ih]
    simp

/-- Writing the records of rendered FASTQ groups reproduces the rendered
bytes. -/
theorem fastqWriteAll_groups (gs : List (List Char × List Char × List Char)) :
    fastqWriteAll (gs.map (fun g => { seq := g.2.1, qual := some g.2.2, name := g.1 }))
      = .ok (renderFastq gs) := by
  induction gs with
  | nil => rfl
  | cons g gs ih =>
    rw [List.map_cons, fastqWriteAll, ih]
    simp [fastqWrite, renderFastq]

/-- Reading a rendered valid FASTQ input. -/
theorem fastqRecords_render (gs : List (List Char × List Char × List Char))
    (h : ValidFastqGroups gs) :
    fastqRecords (renderFastq gs)
      = gs.map (fun g => { seq := g.2.1, qual := some g.2.2, name := g.1 }) := by
  rw [fastqRecords, toLines_renderFastq gs h, fastqRecordsL_groups]

/-- Read-then-rewrite reproduces a rendered valid FASTQ input byte for
byte. -/
theorem fastqRewrite_render (gs : List (List Char × List Char × List Char))
    (h : ValidFastqGroups gs) :
    fastqRewrite (renderFastq gs) = .ok (renderFastq gs) := by
  rw [fastqRewrite, fastqRecords_render gs h, fastqWriteAll_groups]

/-! ## FASTA writer: write-then-read -/

/-- The FASTA writer's output is the rendering of one-line-body records. -/
theorem fastaWriteAll_eq_render (rs : List DnaRecord) :
    fastaWriteAll rs = renderFasta (rs.map (fun r => (r.name, [r.seq]))) := by
  induction rs with
  | nil => rfl
  | cons r rs ih =>
    simp only [fastaWriteAll, List.map_cons, List.flatten_cons] at ih ⊢
    rw [ih]
    simp [fastaWrite, renderFasta]

/-- Reading back what the FASTA writer wrote reproduces the records. -/
theorem fastaReadBack (rs : List DnaRecord)
    (h : ∀ r ∈ rs, ValidHeader r.name ∧ ValidBodyLine r.seq ∧ r.qual = none) :
    fastaRecords none (fastaWriteAll rs) = .ok rs := by
  have hv : ValidFastaRecs (rs.map (fun r => (r.name, [r.seq]))) := by
    intro p hp
    obtain ⟨r, hr, rfl⟩ := List.mem_map.mp hp
    obtain ⟨hh, hs, _⟩ := h r hr
    exact ⟨hh, by intro l hl; rw [List.mem_singleton.mp hl]; exact hs⟩
  rw [fastaWriteAll_eq_render, fastaRecords_render _ hv]
  have hmap : ∀ rs2 : List DnaRecord,
      (∀ r ∈ rs2, ValidHeader r.name ∧ ValidBodyLine r.seq ∧ r.qual = none) →
      (rs2.map (fun r => (r.name, [r.seq]))).map
        (fun r => ({ seq := r.2.flatten, qual := none, name := r.1 } : DnaRecord)) = rs2 := by
    intro rs2 h2
    induction rs2 with
    | nil => rfl
    | cons r rs2 ih =>
      obtain ⟨_, _, hq⟩ := h2 r (List.mem_cons_self _ _)
      have ht := fun q hq2 => h2 q (List.mem_cons_of_mem _ hq2)
      simp only [List.map_cons, ih ht]
      cases r with
      | mk sq ql nm => simp_all
  rw [hmap rs h]

/-! ## The format resolver written from its specification -/

/-- The logical format a bare (non-gz) final segment selects. -/
def formatOfSeg (seg : List Char) : Option DnaFormat :=
  if seg ∈ ["fastq".toList, "fq".toList] then some .fastq
  else if seg ∈ ["fasta".toList, "fa".toList] then some .fasta
  else if seg = "sam".toList then some .sam
  else if seg = "bam".toList then some .bam
  else if seg = "cram".toList then some .cram
  else if seg = "2Bit".toList then some .twoBit
  else none

/-- The logical format a gz-wrapped second-to-last segment selects. -/
def gzFormatOfSeg (seg : List Char) : Option DnaFormat :=
  if seg ∈ ["fa".toList, "fasta".toList] then some .fasta
  else if seg ∈ ["fq".toList, "fastq".toList] then some .fastq
  else none

/-- The compression each format resolves with when no gz segment is
present: `Uncompressed` except the always-compressed containers. -/
def defaultCompressionOf : DnaFormat → Compression
  | .bam => .gzipped
  | .cram => .gzipped
  | _ => .uncompressed

/-- The resolver, written from the amended specification wording. -/
def checkExtSpecCore (ft : List (List Char)) : Except ExtError (DnaFormat × Compression) :=
  if ft.length < 2 then .error .missingExtension
  else if lastSeg ft = "gz".toList then
    if ft.length < 3 then .error .gzMissingFormatExtension
    else
      match gzFormatOfSeg (penultSeg ft) with
      | some fmt => .ok (fmt, .gzipped)
      | none => .error .unsupportedCompressedFormat
  else
    match formatOfSeg (lastSeg ft) with
    | some fmt => .ok (fmt, defaultCompressionOf fmt)
    | none => .error .unsupportedFormat

/-- The specification-side resolver on a filename. -/
def checkExtensionSpec (filename : List Char) : Except ExtError (DnaFormat × Compression) :=
  checkExtSpecCore (splitDots filename)

/-- The source resolver and the specification-side resolver agree on every
segment list. -/
theorem checkExtCore_eq_spec (ft : List (List Char)) :
    checkExtCore ft = checkExtSpecCore ft := by
  simp only [checkExtCore, checkExtSpecCore]
  by_cases h2 : ft.length < 2
  · simp [h2]
  · by_cases hgz : lastSeg ft = "gz".toList
    · by_cases h3 : ft.length < 3
      · simp [h2, hgz, h3]
      · simp only [if_neg h2, if_pos hgz, if_neg h3, gzFormatOfSeg]
        by_cases hfa : penultSeg ft = "fa".toList
        · rw [hfa]; rfl
        · by_cases hfasta : penultSeg ft = "fasta".toList
          · rw [hfasta]; rfl
          · by_cases hfq : penultSeg ft = "fq".toList
            · rw [hfq]; rfl
            · by_cases hfastq : penultSeg ft = "fastq".toList
              · rw [hfastq]; rfl
              · simp_all
    · simp only [if_neg h2, if_neg hgz, formatOfSeg]
      by_cases e1 : lastSeg ft = "fastq".toList
      · rw [e1]; rfl
      · by_cases e2 : lastSeg ft = "fq".toList
        · rw [e2]; rfl
        · by_cases e3 : lastSeg ft = "fasta".toList
          · rw [e3]; rfl
          · by_cases e4 : lastSeg ft = "fa".toList
            · rw [e4]; rfl
            · by_cases e5 : lastSeg ft = "sam".toList
              · rw [e5]; rfl
              · by_cases e6 : lastSeg ft = "bam".toList
                · rw [e6]; rfl
                · by_cases e7 : lastSeg ft = "cram".toList
                  · rw [e7]; rfl
                  · by_cases e8 : lastSeg ft = "2Bit".toList
                    · rw [e8]; rfl
                    · simp_all

/-! ## Auxiliary facts for the claim statements -/

/-- Every physical line the scanner produces is nonempty. -/
theorem toLines_ne_nil (s : List Char) : ∀ l ∈ toLines s, l ≠ [] := by
  induction s with
  | nil => intro l hl; cases hl
  | cons c rest ih =>
    intro l hl
    rw [toLines] at hl
    split at hl
    · rcases List.mem_cons.mp hl with rfl | hm
      · simp
      · exact ih l hm
    · split at hl
      · rcases List.mem_cons.mp hl with rfl | hm
        · simp
        · cases hm
      · rename_i l0 ls heq
        rcases List.mem_cons.mp hl with rfl | hm
        · simp
        · exact ih l (by rw [heq]; exact List.mem_cons_of_mem _ hm)

/-! ## Claims -/

/-- Claim C1 (confirmed): for every valid FASTA input, each record's
sequence is the concatenation of its interior physical lines with the
terminators removed, and the number of records equals the number of
`'>'`-prefixed lines; the scenario input `">a\nACGT\nTTTT\n>b\nGGGG\n"`
yields the records with sequences `"ACGTTTTT"` and `"GGGG"` and then
`None` (the returned list is exactly these records). -/
theorem fasta_seq_concat_and_count (recs : List (List Char × List (List Char)))
    (h : ValidFastaRecs recs) :
    fastaRecords none (renderFasta recs)
      = .ok (recs.map (fun r => { seq := r.2.flatten, qual := none, name := r.1 })) ∧
    countGtLines (renderFasta recs) = recs.length :=
  ⟨fastaRecords_render recs h, countGtLines_render recs h⟩

/-- Witness for C1, at the spec's own scenario input. -/
theorem fasta_seq_concat_and_count_witness :
    ValidFastaRecs [(">a".toList, ["ACGT".toList, "TTTT".toList]), (">b".toList, ["GGGG".toList])] ∧
    renderFasta [(">a".toList, ["ACGT".toList, "TTTT".toList]), (">b".toList, ["GGGG".toList])]
      = (">a\nACGT\nTTTT\n>b\nGGGG\n").toList ∧
    fastaRecords none
        (renderFasta [(">a".toList, ["ACGT".toList, "TTTT".toList]), (">b".toList, ["GGGG".toList])])
      = .ok [{ seq := "ACGTTTTT".toList, qual := none, name := ">a".toList },
             { seq := "GGGG".toList, qual := none, name := ">b".toList }] ∧
    countGtLines
        (renderFasta [(">a".toList, ["ACGT".toList, "TTTT".toList]), (">b".toList, ["GGGG".toList])])
      = 2 := by
  refine ⟨by decide, by decide, ?_, ?_⟩
  · exact (fasta_seq_concat_and_count _ (by decide)).1.trans rfl
  · exact (fasta_seq_concat_and_count _ (by decide)).2.trans rfl

/-- Claim C2 counterexample: reading then rewriting the FASTQ file
`"@r\nAC\n+x\nII\n"` produces `"@r\nAC\n+\nII\n"` — the separator line's
content after `'+'` is discarded, so the output is not byte-identical. -/
theorem fastq_roundtrip_cex :
    fastqRewrite ("@r\nAC\n+x\nII\n".toList) = .ok ("@r\nAC\n+\nII\n".toList) ∧
    ("@r\nAC\n+\nII\n".toList : List Char) ≠ "@r\nAC\n+x\nII\n".toList := by
  exact ⟨rfl, by decide⟩

/-- Claim C2 (amended): read-then-rewrite is byte-identical for FASTQ
inputs made of complete `'\n'`-terminated four-line cycles whose separator
line is exactly `"+"`, and the FASTA writer/reader pair reproduces every
record (name and sequence) for records whose name is a valid header and
whose sequence is terminator-free and does not start with the marker. -/
theorem round_trip_amended (gs : List (List Char × List Char × List Char))
    (rs : List DnaRecord) (h1 : ValidFastqGroups gs)
    (h2 : ∀ r ∈ rs, ValidHeader r.name ∧ ValidBodyLine r.seq ∧ r.qual = none) :
    fastqRewrite (renderFastq gs) = .ok (renderFastq gs) ∧
    fastaRecords none (fastaWriteAll rs) = .ok rs :=
  ⟨fastqRewrite_render gs h1, fastaReadBack rs h2⟩

/-- Witness for the amended C2, at the spec's FASTQ scenario record and a
one-record FASTA stream. -/
theorem round_trip_amended_witness :
    (ValidFastqGroups [("@r1".toList, "ACTGGTCA".toList, "IIIIIIII".toList)] ∧
      (∀ r ∈ [({ seq := "ACGT".toList, qual := none, name := ">a".toList } : DnaRecord)],
        ValidHeader r.name ∧ ValidBodyLine r.seq ∧ r.qual = none)) ∧
    fastqRewrite (renderFastq [("@r1".toList, "ACTGGTCA".toList, "IIIIIIII".toList)])
      = .ok (renderFastq [("@r1".toList, "ACTGGTCA".toList, "IIIIIIII".toList)]) ∧
    fastaRecords none
        (fastaWriteAll [{ seq := "ACGT".toList, qual := none, name := ">a".toList }])
      = .ok [{ seq := "ACGT".toList, qual := none, name := ">a".toList }] := by
  refine ⟨⟨by decide, by decide⟩, ?_, ?_⟩
  · exact (round_trip_amended [("@r1".toList, "ACTGGTCA".toList, "IIIIIIII".toList)]
      [{ seq := "ACGT".toList, qual := none, name := ">a".toList }]
      (by decide) (by decide)).1
  · exact (round_trip_amended [("@r1".toList, "ACTGGTCA".toList, "IIIIIIII".toList)]
      [{ seq := "ACGT".toList, qual := none, name := ">a".toList }]
      (by decide) (by decide)).2

/-- Claim C3 counterexample: on input `">a\nAC\n"` the record's name is
`">a"` — the leading marker is NOT stripped (only the terminator is). -/
theorem fasta_name_marker_cex :
    fastaNext none (">a\nAC\n".toList)
      = .ok (some ({ seq := "AC".toList, qual := none, name := ">a".toList }, none, [])) ∧
    (">a".toList : List Char) ≠ "a".toList :=
  ⟨rfl, by decide⟩

/-- Claim C3 (amended): for every record returned on a valid FASTA input,
the name is the header line with only the trailing terminator removed; the
leading `'>'` marker is retained. -/
theorem fasta_name_keeps_marker (recs : List (List Char × List (List Char)))
    (h : ValidFastaRecs recs) :
    Except.map (fun l => l.map DnaRecord.name) (fastaRecords none (renderFasta recs))
      = .ok (recs.map (fun r => r.1)) := by
  rw [fastaRecords_render recs h]
  simp [Except.map]

/-- Witness for the amended C3. -/
theorem fasta_name_keeps_marker_witness :
    ValidFastaRecs [(">a".toList, ["AC".toList])] ∧
    Except.map (fun l => l.map DnaRecord.name)
        (fastaRecords none (renderFasta [(">a".toList, ["AC".toList])]))
      = .ok [">a".toList] :=
  ⟨by decide, (fasta_name_keeps_marker _ (by decide)).trans rfl⟩

/-- Claim C4 counterexample: the FASTA writer serializes the record with
name `"x"` and sequence `"A"` as `"x\nA\n"`, not `">x\nA\n"` — no `'>'`
marker is prepended. -/
theorem fasta_write_no_marker_cex :
    fastaWrite { seq := "A".toList, qual := none, name := "x".toList } = "x\nA\n".toList ∧
    ("x\nA\n".toList : List Char) ≠ ">x\nA\n".toList :=
  ⟨rfl, by decide⟩

/-- Claim C4 (amended): `FastaWriter::write` serializes a record as
name + `'\n'` + sequence + `'\n'` without prepending any marker; for
terminator-free fields the output is exactly two physical lines (the
sequence is written on a single line, never re-wrapped), and the output's
first line starts with `'>'` only if the name already does. -/
theorem fasta_write_amended (rec : DnaRecord) (h1 : '\n' ∉ rec.name)
    (h2 : '\n' ∉ rec.seq) :
    fastaWrite rec = rec.name ++ '\n' :: (rec.seq ++ ['\n']) ∧
    toLines (fastaWrite rec) = [rec.name ++ ['\n'], rec.seq ++ ['\n']] ∧
    (startsWithChar '>' rec.name = false →
      startsWithChar '>' ((toLines (fastaWrite rec)).headD []) = false) := by
  have hlines : toLines (fastaWrite rec) = [rec.name ++ ['\n'], rec.seq ++ ['\n']] := by
    rw [fastaWrite, toLines_line _ _ h1, toLines_line _ _ h2]
    rfl
  refine ⟨rfl, hlines, ?_⟩
  intro h3
  rw [hlines]
  exact startsWithChar_terminated _ h3

/-- Witness for the amended C4. -/
theorem fasta_write_amended_witness :
    ('\n' ∉ "x".toList ∧ '\n' ∉ "A".toList) ∧
    fastaWrite { seq := "A".toList, qual := none, name := "x".toList }
      = "x".toList ++ '\n' :: ("A".toList ++ ['\n']) ∧
    toLines (fastaWrite { seq := "A".toList, qual := none, name := "x".toList })
      = ["x".toList ++ ['\n'], "A".toList ++ ['\n']] ∧
    (startsWithChar '>' ("x".toList : List Char) = false →
      startsWithChar '>'
        ((toLines (fastaWrite { seq := "A".toList, qual := none, name := "x".toList })).headD [])
        = false) :=
  ⟨⟨by decide, by decide⟩, fasta_write_amended _ (by decide) (by decide)⟩

/-- Claim C5 counterexample: the final-segment match is case-sensitive
`"2Bit"`, so `"x.2bit"` fails with the unsupported-format error rather
than resolving to `(TwoBit, Uncompressed)`; and `"x.gz"` (two segments
ending in the gz marker) fails with the distinct
`gz file has no format extension` error, not `UnsupportedCompressedFormat`. -/
theorem check_extension_cex :
    check_extension ("x.2bit".toList) = .error .unsupportedFormat ∧
    check_extension ("x.gz".toList) = .error .gzMissingFormatExtension ∧
    (Except.error ExtError.unsupportedFormat
      ≠ (Except.ok (DnaFormat.twoBit, Compression.uncompressed)
          : Except ExtError (DnaFormat × Compression))) ∧
    ExtError.gzMissingFormatExtension ≠ ExtError.unsupportedCompressedFormat := by
  refine ⟨rfl, rfl, ?_, by decide⟩
  intro h
  exact Except.noConfusion h

/-- Claim C5 (amended): the resolver splits on `'.'`; fewer than two
segments fails with MissingExtension; a final `gz` segment with only two
segments fails with the distinct gz-missing-format-extension error, and
otherwise selects Fasta/Fastq (Gzipped) from a second-to-last segment in
{fa,fasta} / {fq,fastq}, anything else failing with
UnsupportedCompressedFormat; otherwise the final segment selects the
format among fastq/fq/fasta/fa/sam/bam/cram/2Bit (case-sensitively), with
Uncompressed the default except Bam and Cram which resolve Gzipped; any
other final segment fails with UnsupportedFormat.  Stated as: the source
resolver coincides with the resolver written from this specification. -/
theorem check_extension_amended (filename : List Char) :
    check_extension filename = checkExtensionSpec filename :=
  checkExtCore_eq_spec (splitDots filename)

/-- Claim C6 counterexample: on the FASTQ input `"@r\nACGT\n"`, whose
stream ends after two of the four lines of a cycle that began non-empty,
`next` returns `None` — it does not return a partial record. -/
theorem fastq_truncated_cex : fastqNext ("@r\nACGT\n".toList) = none := rfl

/-- Claim C6 (amended): for every FASTQ stream that ends after one to
three of the four lines of a cycle that began non-empty, `next` silently
returns `None`, discarding the partial data. -/
theorem fastq_truncated_none (s : List Char) (h1 : toLines s ≠ [])
    (h2 : (toLines s).length ≤ 3) :
    fastqNext s = none := by
  rcases hl : toLines s with _ | ⟨a, _ | ⟨b, _ | ⟨c, _ | ⟨d, rest⟩⟩⟩⟩ <;> rw [fastqNext, hl]
  · rfl
  · rfl
  · rfl
  · rfl
  · rw [hl] at h2
    simp at h2

/-- Witness for the amended C6. -/
theorem fastq_truncated_none_witness :
    (toLines ("@r\nACGT\n".toList) ≠ [] ∧ (toLines ("@r\nACGT\n".toList)).length ≤ 3) ∧
    fastqNext ("@r\nACGT\n".toList) = none :=
  ⟨⟨by decide, by decide⟩, fastq_truncated_none _ (by decide) (by decide)⟩

/-- Claim C7 (confirmed): a FASTA stream whose first line is non-empty and
does not start with `'>'` fails with MalformedInput, and an already-empty
stream yields `None` directly. -/
theorem fasta_malformed_first_line (s : List Char) (h1 : toLines s ≠ [])
    (h2 : startsWithChar '>' ((toLines s).headD []) = false) :
    fastaNext none s = .error .malformedInput ∧
    fastaNext none ([] : List Char) = .ok none := by
  constructor
  · rcases hl : toLines s with _ | ⟨line, rest⟩
    · exact absurd hl h1
    · have hne : line ≠ [] := toLines_ne_nil s line (by rw [hl]; exact List.mem_cons_self _ _)
      rw [hl] at h2
      simp only [List.headD_cons] at h2
      rw [fastaNext, hl]
      simp [fastaNextL, h2, hne]
  · rfl

/-- Witness for C7. -/
theorem fasta_malformed_first_line_witness :
    (toLines ("ACGT\n".toList) ≠ [] ∧
      startsWithChar '>' ((toLines ("ACGT\n".toList)).headD []) = false) ∧
    fastaNext none ("ACGT\n".toList) = .error .malformedInput ∧
    fastaNext none ([] : List Char) = .ok none :=
  ⟨⟨by decide, by decide⟩, fasta_malformed_first_line _ (by decide) (by decide)⟩

/-- Claim C8 (confirmed): the FASTQ writer fails with MissingQuality when
the record's quality is absent, and otherwise serializes the record as
name + `'\n'` + sequence + `'\n'` + `"+"` + `'\n'` + quality + `'\n'`. -/
theorem fastq_write_spec (rec : DnaRecord) :
    (rec.qual = none → fastqWrite rec = .error .missingQuality) ∧
    (∀ q, rec.qual = some q →
      fastqWrite rec
        = .ok (rec.name ++ '\n' :: (rec.seq ++ '\n' :: ('+' :: '\n' :: (q ++ ['\n']))))) := by
  constructor
  · intro h
    rw [fastqWrite, h]
  · intro q h
    rw [fastqWrite, h]

/-- Witness for C8, at the spec's FASTQ scenario record. -/
theorem fastq_write_spec_witness :
    fastqWrite { seq := "AC".toList, qual := none, name := "@r".toList }
      = .error .missingQuality ∧
    fastqWrite { seq := "ACTGGTCA".toList, qual := some "IIIIIIII".toList, name := "@r1".toList }
      = .ok ("@r1\nACTGGTCA\n+\nIIIIIIII\n".toList) := by
  constructor
  · exact (fastq_write_spec _).1 rfl
  · exact ((fastq_write_spec _).2 ("IIIIIIII".toList) rfl).trans rfl

/-- Claim C9 (code bug): `SamReader::next` on the non-empty SAM input
`"@HD\tVN:1.6\n"` silently returns `None` (no record, no error) at any
fuel, because the loop condition's `!` binds to the byte count and the
accumulated line starts with `'@'`; no UnimplementedFormat error is
surfaced. -/
theorem sam_next_silent_none (fuel : Nat) :
    samNext (fuel + 1) ("@HD\tVN:1.6\n".toList) = .result none := by
  simp only [samNext, samNextAux]
  split
  · rename_i h
    exact absurd h.2 (by decide)
  · rfl

/-- Claim C10 counterexample: on the FASTA input `">a\nAC\nGT"`, whose
final physical line `"GT"` has no trailing terminator, the last record's
sequence is `"ACG"` — not `"G"`, the final line with its last data
character removed (the sequence also contains the earlier interior line). -/
theorem pop_last_char_cex :
    fastaRecords none (">a\nAC\nGT".toList)
      = .ok [{ seq := "ACG".toList, qual := none, name := ">a".toList }] ∧
    ("ACG".toList : List Char) ≠ "G".toList := by
  constructor
  · have h1 : fastaNextL none (toLines (">a\nAC\nGT".toList))
        = .ok (some ({ seq := "ACG".toList, qual := none, name := ">a".toList }, none, [])) := rfl
    rw [fastaRecords, fastaRecordsL_ok_some _ _ _ _ _ h1, fastaRecordsL_ok_none none [] rfl]
    rfl
  · decide

/-- Claim C10 (amended): line-terminator stripping pops the last character
unconditionally, so when the final physical line lacks a terminator the
reader removes a data character instead: the FASTQ cycle whose fourth line
is an unterminated `q` yields quality `q` minus its last character, and
the FASTA record whose last interior line is an unterminated `fl` yields
sequence (interior lines concatenated) ++ (`fl` minus its last
character). -/
theorem pop_last_char_amended (n sq p q hd fl : List Char) (body : List (List Char))
    (hn : '\n' ∉ n) (hs : '\n' ∉ sq) (hp : '\n' ∉ p) (hq : '\n' ∉ q) (hq0 : q ≠ [])
    (hh : ValidHeader hd) (hb : ∀ l ∈ body, ValidBodyLine l)
    (hf1 : startsWithChar '>' fl = false) (hf2 : '\n' ∉ fl) (hf3 : fl ≠ []) :
    fastqNext (n ++ '\n' :: (sq ++ '\n' :: (p ++ '\n' :: q)))
      = some ({ seq := sq, qual := some q.dropLast, name := n }, []) ∧
    fastaRecords none (hd ++ '\n' :: ((body.map (fun l => l ++ ['\n'])).flatten ++ fl))
      = .ok [{ seq := body.flatten ++ fl.dropLast, qual := none, name := hd }] := by
  constructor
  · rw [fastqNext, toLines_line _ _ hn, toLines_line _ _ hs, toLines_line _ _ hp,
      toLines_last q hq hq0]
    simp [fastqNextL, List.dropLast_concat]
  · have hx : fastaNextL none
        (toLines (hd ++ '\n' :: ((body.map (fun l => l ++ ['\n'])).flatten ++ fl)))
        = .ok (some ({ seq := body.flatten ++ fl.dropLast, qual := none, name := hd },
            none, [])) := by
      rw [toLines_line _ _ hh.2, toLines_body _ _ (fun l hm => (hb l hm).2),
        toLines_last fl hf2 hf3,
        fastaNextL_header hd _ (startsWithChar_append _ _ _ hh.1),
        fastaNextL_some, fastaLoopLines_body body [fl] [] hb]
      simp [fastaLoopLines, hf1, hf3]
    rw [fastaRecords, fastaRecordsL_ok_some _ _ _ _ _ hx, fastaRecordsL_ok_none none [] rfl]
    rfl

/-- Witness for the amended C10. -/
theorem pop_last_char_amended_witness :
    ('\n' ∉ "@r".toList ∧ '\n' ∉ "AC".toList ∧ '\n' ∉ "+".toList ∧ '\n' ∉ "II".toList ∧
      ("II".toList : List Char) ≠ [] ∧ ValidHeader ">a".toList ∧
      (∀ l ∈ ["AC".toList], ValidBodyLine l) ∧
      startsWithChar '>' ("GT".toList : List Char) = false ∧ '\n' ∉ "GT".toList ∧
      ("GT".toList : List Char) ≠ []) ∧
    fastqNext ("@r".toList ++ '\n' :: ("AC".toList ++ '\n' :: ("+".toList ++ '\n' :: "II".toList)))
      = some ({ seq := "AC".toList, qual := some ("II".toList).dropLast,
                name := "@r".toList }, []) ∧
    fastaRecords none
        (">a".toList ++ '\n' :: ((["AC".toList].map (fun l => l ++ ['\n'])).flatten ++ "GT".toList))
      = .ok [{ seq := ["AC".toList].flatten ++ ("GT".toList).dropLast, qual := none,
               name := ">a".toList }] := by
  refine ⟨⟨by decide, by decide, by decide, by decide, by decide, by decide, by decide,
    by decide, by decide, by decide⟩, ?_, ?_⟩
  · exact (pop_last_char_amended "@r".toList "AC".toList "+".toList "II".toList
      ">a".toList "GT".toList ["AC".toList] (by decide) (by decide) (by decide) (by decide)
      (by decide) (by decide) (by decide) (by decide) (by decide) (by decide)).1
  · exact (pop_last_char_amended "@r".toList "AC".toList "+".toList "II".toList
      ">a".toList "GT".toList ["AC".toList] (by decide) (by decide) (by decide) (by decide)
      (by decide) (by decide) (by decide) (by decide) (by decide) (by decide)).2

end DnaFile
